import Mathlib

/-!
Verification development for the `garmin-to-notion` sync script
(`garmin_to_notion.py`).  The Python functions relevant to the checked
properties are shallowly embedded as executable Lean definitions:

* `extract_value` — the recursive nested-structure lookup (source lines
  158-179), modelled over the JSON-like value type `JVal`.  Python's
  truthiness test `if not data` is modelled by `JVal.falsy`; dictionary
  membership/lookup by `dictGet` (Python dicts preserve insertion order and
  have unique keys, so association lists model them).  The recursion is
  implemented with an explicit fuel parameter (`extractF`), with
  `JVal.size` supplying always-sufficient fuel; fuel-irrelevance is proved
  below, so `extract_value` is a faithful total model of the Python
  function (which terminates on all acyclic inputs).  Numbers are modelled
  as integers: none of the checked properties depend on fractional values,
  and the scalar test `isinstance(val, (int, float, str))` ignores the
  numeric value itself.
* `notion_number`, `notion_select`, `notion_title`,
  `notion_date_obj_from_iso`, `build_health_properties`,
  `health_push_attempted` — the health-record builders (lines 129-156,
  240-258) and the Name/Date guard of `main` (lines 481-483).  Metric
  values are modelled as `Option ℚ` (`None` or a number); Python's
  `round(v, 2)` on binary floats is idealised as exact rational rounding,
  which no checked claim depends on.  The dict comprehension
  `{k: v for k, v in props.items() if v is not None}` is `keepSome`.
* `safe_fetch` (lines 90-95) — fallible fetches are modelled as
  `Except`-valued functions; the Python `try/except` returning `None`
  becomes a total function into `Option`.  The caller pattern
  `safe_fetch(...) or default` is `pyOr`.
* `find_existing_activity_page` (lines 358-367) — duplicate detection
  against the two preloaded maps, including the `str(garmin_id)`
  normalisation, the truthiness gates, and the `name|date|type` fallback
  key; `dateOnly` models `parsed_iso.split("T")[0]` from `main`
  (line 544).

Definitions whose doc comment says they transcribe the specification's
words (rather than the source) exist only to be compared against the
source-derived definitions.
-/

/-- JSON-like values as returned by the Garmin API and traversed by
`extract_value`: numbers, strings, `None`, dicts (insertion-ordered
association lists) and lists. -/
inductive JVal where
  | jNum (n : Int)
  | jStr (s : String)
  | jNull
  | jDict (entries : List (String × JVal))
  | jList (items : List JVal)

mutual

/-- Structural size of a `JVal`, used as an always-sufficient fuel bound
for the recursion of `extract_value`. -/
def JVal.size : JVal → Nat
  | .jNum _ => 1
  | .jStr _ => 1
  | .jNull => 1
  | .jDict es => 1 + sizeEntries es
  | .jList xs => 1 + sizeItems xs

/-- Combined size of a dict's entries. -/
def sizeEntries : List (String × JVal) → Nat
  | [] => 0
  | (_, v) :: rest => 1 + JVal.size v + sizeEntries rest

/-- Combined size of a list's items. -/
def sizeItems : List JVal → Nat
  | [] => 0
  | x :: rest => 1 + JVal.size x + sizeItems rest

end

/-- Python truthiness: `not data` holds for `None`, zero, the empty string,
the empty dict and the empty list. -/
def JVal.falsy : JVal → Bool
  | .jNull => true
  | .jNum n => n == 0
  | .jStr s => s == ""
  | .jDict es => es.isEmpty
  | .jList xs => xs.isEmpty

/-- The scalar test of `extract_value`:
`isinstance(val, (int, float, str))`. -/
def JVal.isScalar : JVal → Bool
  | .jNum _ => true
  | .jStr _ => true
  | _ => false

/-- Python dict membership and indexing (`k in data` / `data[k]`) on an
insertion-ordered association list. -/
def dictGet {α : Type} (k : String) : List (String × α) → Option α
  | [] => none
  | (k1, v) :: rest => if k == k1 then some v else dictGet k rest

/-- First loop of `extract_value` (source lines 162-169): for each
candidate key in order, if it is a key of the dict, return its value when
scalar, otherwise recurse into the value (`rec`) before moving on. -/
def goKeysF (rec : JVal → Option JVal) (es : List (String × JVal)) : List String → Option JVal
  | [] => none
  | k :: rest =>
    match dictGet k es with
    | some val =>
      if val.isScalar then some val
      else
        match rec val with
        | some r => some r
        | none => goKeysF rec es rest
    | none => goKeysF rec es rest

/-- Second loop of `extract_value` (source lines 170-173): recurse into
every value of the dict in iteration order, returning the first hit. -/
def goValsF (rec : JVal → Option JVal) : List (String × JVal) → Option JVal
  | [] => none
  | (_, v) :: rest =>
    match rec v with
    | some r => some r
    | none => goValsF rec rest

/-- List loop of `extract_value` (source lines 174-178): recurse into each
element in order, returning the first hit. -/
def goItemsF (rec : JVal → Option JVal) : List JVal → Option JVal
  | [] => none
  | x :: rest =>
    match rec x with
    | some r => some r
    | none => goItemsF rec rest

/-- Fuelled body of `extract_value` (source lines 158-179).  Fuel only
bounds the recursion depth; `extractF_fuel` below shows any fuel of at
least `data.size` gives the same answer. -/
def extractF : Nat → JVal → List String → Option JVal
  | 0, _, _ => none
  | fuel + 1, data, keys =>
    if data.falsy then none
    else
      match data with
      | .jDict es =>
        match goKeysF (fun v => extractF fuel v keys) es keys with
        | some r => some r
        | none => goValsF (fun v => extractF fuel v keys) es
      | .jList items => goItemsF (fun v => extractF fuel v keys) items
      | _ => none

/-- The nested value extractor `extract_value(data, keys)`
(source lines 158-179). -/
def extract_value (data : JVal) (keys : List String) : Option JVal :=
  extractF data.size data keys

/-- Modelled from the spec's words, clause (a)/(b) of the search order:
direct keys of the mapping are checked in candidate order; a matched key
with a scalar value is returned; a matched key with a non-scalar value is
recursed into with the same candidate list before moving to the next
candidate. -/
def specCandF (rec : JVal → Option JVal) (es : List (String × JVal)) : List String → Option JVal
  | [] => none
  | k :: rest =>
    match dictGet k es with
    | some val =>
      if val.isScalar then some val
      else
        match rec val with
        | some r => some r
        | none => specCandF rec es rest
    | none => specCandF rec es rest

/-- Modelled from the spec's words, clause (d): for a sequence, recurse
into each element in order and return the first non-absent result. -/
def specSeqF (rec : JVal → Option JVal) : List JVal → Option JVal
  | [] => none
  | x :: rest =>
    match rec x with
    | some r => some r
    | none => specSeqF rec rest

/-- Modelled from the spec's words: whether some candidate key directly
matches a top-level key of the mapping. -/
def hasDirectCandidate (es : List (String × JVal)) (keys : List String) : Bool :=
  keys.any (fun k => (dictGet k es).isSome)

/-- Modelled from the spec's words, the full claimed search order taken
literally: clauses (a)/(b) first; clause (c) — recursing into every value
of the mapping — applies only "if no direct candidate matches", i.e. only
when no candidate key is a top-level key of the mapping; clause (d) for
sequences; scalars and absent values yield "not found". -/
def specOrderF : Nat → JVal → List String → Option JVal
  | 0, _, _ => none
  | fuel + 1, data, keys =>
    match data with
    | .jDict es =>
      match specCandF (fun v => specOrderF fuel v keys) es keys with
      | some r => some r
      | none =>
        if hasDirectCandidate es keys then none
        else specSeqF (fun v => specOrderF fuel v keys) (es.map Prod.snd)
    | .jList xs => specSeqF (fun v => specOrderF fuel v keys) xs
    | _ => none

/-- Wrapper for `specOrderF` with sufficient fuel. -/
def spec_order (data : JVal) (keys : List String) : Option JVal :=
  specOrderF data.size data keys

/-- Modelled from the spec's words with clause (c) amended to apply
whenever the direct-candidate phase produced no result: after clauses
(a)/(b) fail, recurse into every value of the mapping in iteration
order. -/
def specExtractF : Nat → JVal → List String → Option JVal
  | 0, _, _ => none
  | fuel + 1, data, keys =>
    match data with
    | .jDict es =>
      match specCandF (fun v => specExtractF fuel v keys) es keys with
      | some r => some r
      | none => specSeqF (fun v => specExtractF fuel v keys) (es.map Prod.snd)
    | .jList xs => specSeqF (fun v => specExtractF fuel v keys) xs
    | _ => none

/-- Wrapper for `specExtractF` with sufficient fuel. -/
def spec_extract (data : JVal) (keys : List String) : Option JVal :=
  specExtractF data.size data keys

/-- Modelled from the spec's words: the first candidate key (in candidate
order) whose value at this dict is scalar. -/
def firstScalarCand (es : List (String × JVal)) : List String → Option JVal
  | [] => none
  | k :: rest =>
    match dictGet k es with
    | some val => if val.isScalar then some val else firstScalarCand es rest
    | none => firstScalarCand es rest

/-- Modelled from the spec's words "searching breadth-first through nested
mappings and sequences": a FIFO work-queue traversal that, at each visited
mapping, returns the first candidate key bound to a scalar, and otherwise
enqueues all nested values behind the structures already waiting. -/
def specBFSF : Nat → List JVal → List String → Option JVal
  | 0, _, _ => none
  | fuel + 1, queue, keys =>
    match queue with
    | [] => none
    | d :: rest =>
      match d with
      | .jDict es =>
        match firstScalarCand es keys with
        | some v => some v
        | none => specBFSF fuel (rest ++ es.map Prod.snd) keys
      | .jList xs => specBFSF fuel (rest ++ xs) keys
      | _ => specBFSF fuel rest keys

/-- Breadth-first search wrapper (fuel `data.size` suffices because each
step consumes one of the structure's distinct sub-values). -/
def spec_bfs (data : JVal) (keys : List String) : Option JVal :=
  specBFSF data.size [data] keys

/-- All scalar values bound to a candidate key anywhere inside a dict's
entries, in traversal order (`recO` recurses into nested values). -/
def occsEntries (recO : JVal → List JVal) (keys : List String) : List (String × JVal) → List JVal
  | [] => []
  | (k, v) :: rest =>
    (if k ∈ keys ∧ v.isScalar = true then [v] else []) ++ recO v ++ occsEntries recO keys rest

/-- All scalar values bound to a candidate key anywhere inside a list's
items, in traversal order. -/
def occsItems (recO : JVal → List JVal) : List JVal → List JVal
  | [] => []
  | x :: rest => recO x ++ occsItems recO rest

/-- Fuelled enumeration of every scalar value bound to a candidate key
anywhere in the structure. -/
def occsF : Nat → JVal → List String → List JVal
  | 0, _, _ => []
  | fuel + 1, data, keys =>
    match data with
    | .jDict es => occsEntries (fun v => occsF fuel v keys) keys es
    | .jList xs => occsItems (fun v => occsF fuel v keys) xs
    | _ => []

/-- Every scalar value bound to a candidate key anywhere in the structure,
in traversal order.  `occurrences data keys = []` states that no candidate
key resolves to a scalar anywhere in `data`. -/
def occurrences (data : JVal) (keys : List String) : List JVal :=
  occsF data.size data keys

/-- Whether the keys of one dict's entry list are pairwise distinct
(Python dicts cannot have duplicate keys). -/
def keysNodup : List (String × JVal) → Bool
  | [] => true
  | (k, _) :: rest => !(rest.any (fun q => q.1 == k)) && keysNodup rest

/-- All entry values satisfy the recursive well-formedness check. -/
def wfEntries (recW : JVal → Bool) : List (String × JVal) → Bool
  | [] => true
  | (_, v) :: rest => recW v && wfEntries recW rest

/-- All items satisfy the recursive well-formedness check. -/
def wfItems (recW : JVal → Bool) : List JVal → Bool
  | [] => true
  | x :: rest => recW x && wfItems recW rest

/-- Fuelled well-formedness: every dict in the structure has pairwise
distinct keys. -/
def wfF : Nat → JVal → Bool
  | 0, _ => true
  | fuel + 1, data =>
    match data with
    | .jDict es => keysNodup es && wfEntries (fun v => wfF fuel v) es
    | .jList xs => wfItems (fun v => wfF fuel v) xs
    | _ => true

/-- Well-formed structures: every dict has pairwise distinct keys.  Every
structure arising from a Python dict satisfies this. -/
def wfJVal (data : JVal) : Bool :=
  wfF data.size data

/-- A formatted Notion property payload, one constructor per payload shape
produced by the `notion_*` helpers (source lines 129-156). -/
inductive NProp where
  | number (x : ℚ)
  | dateObj (start : String)
  | selectName (s : String)
  | titleContent (s : String)

/-- Python's `round(v, 2)`, idealised from binary floats to exact
rationals (no checked claim depends on the rounding of non-zero values). -/
def round2 (q : ℚ) : ℚ :=
  ((round (q * 100) : ℤ) : ℚ) / 100

/-- The helper `notion_number(value)` (source lines 134-143): `None` stays
`None`, a value equal to zero is mapped to `None`, any other number is
rounded to two decimals and wrapped as a number payload. -/
def notion_number (value : Option ℚ) : Option NProp :=
  match value with
  | none => none
  | some v => if v = 0 then none else some (.number (round2 v))

/-- The helper `notion_select(name)` (source lines 145-148). -/
def notion_select (name : Option String) : Option NProp :=
  match name with
  | none => none
  | some s => some (.selectName s)

/-- The helper `notion_title(text)` (source lines 150-151): always returns
a title payload, never `None`. -/
def notion_title (text : String) : NProp :=
  .titleContent text

/-- The helper `notion_date_obj_from_iso(iso_str)` (source lines 129-132):
`None` or an empty (falsy) string yields `None`. -/
def notion_date_obj_from_iso (iso_str : Option String) : Option NProp :=
  match iso_str with
  | none => none
  | some s => if s = "" then none else some (.dateObj s)

/-- A Python `datetime.date`, as far as the health-record builder needs
it: a year, month and day. -/
structure PyDate where
  year : Nat
  month : Nat
  day : Nat

/-- Zero-padded two-digit rendering of a date component. -/
def pad2 (n : Nat) : String :=
  if n < 10 then "0" ++ toString n else toString n

/-- Zero-padded four-digit rendering of a year. -/
def pad4 (n : Nat) : String :=
  if n < 10 then "000" ++ toString n
  else if n < 100 then "00" ++ toString n
  else if n < 1000 then "0" ++ toString n
  else toString n

/-- The date's `isoformat()` string `YYYY-MM-DD`; always non-empty. -/
def PyDate.isoformat (d : PyDate) : String :=
  pad4 d.year ++ "-" ++ pad2 d.month ++ "-" ++ pad2 d.day

/-- The date's `strftime("%m/%d/%Y")` string used for the record title. -/
def PyDate.strftimeMDY (d : PyDate) : String :=
  pad2 d.month ++ "/" ++ pad2 d.day ++ "/" ++ pad4 d.year

/-- The comprehension `{k: v for k, v in props.items() if v is not None}`
(source line 258): keep only the bindings whose value is present. -/
def keepSome (l : List (String × Option NProp)) : List (String × NProp) :=
  l.filterMap (fun p =>
    match p.2 with
    | some v => some (p.1, v)
    | none => none)

/-- The builder `build_health_properties` (source lines 240-258): assemble
the thirteen candidate bindings in source order, then drop the `None`
ones. -/
def build_health_properties (yesterday : PyDate)
    (steps_total body_weight bb_min bb_max sleep_score : Option ℚ)
    (bed_time_iso wake_time_iso : Option String)
    (training_readiness : Option ℚ) (training_status_val : Option String)
    (resting_hr calories : Option ℚ) : List (String × NProp) :=
  keepSome
    [("Name", some (notion_title yesterday.strftimeMDY)),
     ("Date", notion_date_obj_from_iso (some yesterday.isoformat)),
     ("Steps", notion_number steps_total),
     ("Body Weight", notion_number body_weight),
     ("Body Battery (Min)", notion_number bb_min),
     ("Body Battery (Max)", notion_number bb_max),
     ("Sleep Score", notion_number sleep_score),
     ("Bedtime",
       match bed_time_iso with
       | some s => if s = "" then none else notion_date_obj_from_iso (some s)
       | none => none),
     ("Wake Time",
       match wake_time_iso with
       | some s => if s = "" then none else notion_date_obj_from_iso (some s)
       | none => none),
     ("Training Readiness", notion_number training_readiness),
     ("Training Status", notion_select training_status_val),
     ("Resting HR", notion_number resting_hr),
     ("Calories Burned", notion_number calories)]

/-- The guard in `main` (source lines 481-483): the health-record create
call is issued exactly when neither `"Name"` nor `"Date"` is missing from
the built properties. -/
def health_push_attempted (health_props : List (String × NProp)) : Bool :=
  !((dictGet "Name" health_props).isNone || (dictGet "Date" health_props).isNone)

/-- The wrapper `safe_fetch(func, *args)` (source lines 90-95): run the
fetch; a successful result is passed through, any raised exception is
swallowed (after logging) and `None` is returned.  Fallible fetches are
modelled as `Except`-valued functions. -/
def safe_fetch {α β ε : Type} (func : α → Except ε β) (a : α) : Option β :=
  match func a with
  | .ok b => some b
  | .error _ => none

/-- Python's `x or d` as used on fetch results in `main` (source lines
393-399): substitute the default when the result is `None` or falsy. -/
def pyOr (x : Option JVal) (d : JVal) : JVal :=
  match x with
  | none => d
  | some v => if v.falsy then d else v

/-- The fallback dedupe key `f"{name}|{date_only}|{act_type}"`
(source line 366). -/
def mkActivityKey (name date_only act_type : String) : String :=
  name ++ "|" ++ date_only ++ "|" ++ act_type

/-- The truncation `parsed_iso.split("T")[0]` from `main` (source line
544) that produces the `date_only` argument. -/
def dateOnly (iso : String) : String :=
  ((iso.splitOn "T").headD iso)

/-- The lookup `find_existing_activity_page` (source lines 358-367): if
the database has a Garmin ID property and the (already stringified)
`garmin_id` is truthy, a truthy page id stored under it wins; otherwise
fall back to the `name|date|type` key. -/
def find_existing_activity_page (garmin_id : Option String)
    (name date_only act_type : String)
    (existing_by_garmin_id existing_by_key : List (String × String))
    (db_has_garmin_id : Bool) : Option String :=
  match garmin_id with
  | some g =>
    if db_has_garmin_id && !(g == "") then
      match dictGet g existing_by_garmin_id with
      | some pid =>
        if pid == "" then dictGet (mkActivityKey name date_only act_type) existing_by_key
        else some pid
      | none => dictGet (mkActivityKey name date_only act_type) existing_by_key
    else dictGet (mkActivityKey name date_only act_type) existing_by_key
  | none => dictGet (mkActivityKey name date_only act_type) existing_by_key

/-- Modelled from the claim's words: the page id stored under the Garmin
id wins whenever the database has the Garmin ID property and the id is
non-empty and present in the preloaded map; otherwise the page id stored
under the fallback `name|date|type` key is returned, and `none` when
neither lookup matches. -/
def spec_find_page (garmin_id : Option String)
    (name date_only act_type : String)
    (existing_by_garmin_id existing_by_key : List (String × String))
    (db_has_garmin_id : Bool) : Option String :=
  match
    (match garmin_id with
     | some g =>
       if db_has_garmin_id && !(g == "") then dictGet g existing_by_garmin_id
       else none
     | none => none) with
  | some pid => some pid
  | none => dictGet (mkActivityKey name date_only act_type) existing_by_key

/-- Every structure has positive size. -/
theorem JVal.size_pos (v : JVal) : 1 ≤ v.size := by
  cases v <;> simp [JVal.size]

/-- A successful dict lookup comes from an entry of the dict. -/
theorem dictGet_mem {α : Type} {k : String} {v : α} :
    ∀ {l : List (String × α)}, dictGet k l = some v → (k, v) ∈ l := by
  intro l
  induction l with
  | nil => intro h; simp [dictGet] at h
  | cons p rest ih =>
    intro h
    obtain ⟨k1, w⟩ := p
    simp only [dictGet] at h
    split at h
    · rename_i hk
      obtain rfl : k = k1 := eq_of_beq hk
      obtain rfl : w = v := Option.some.inj h
      exact List.mem_cons_self _ _
    · exact List.mem_cons_of_mem _ (ih h)

/-- An entry's value is smaller than the entry list. -/
theorem size_lt_of_mem_entries {k : String} {v : JVal} :
    ∀ {es : List (String × JVal)}, (k, v) ∈ es → JVal.size v < sizeEntries es := by
  intro es
  induction es with
  | nil => intro h; simp at h
  | cons p rest ih =>
    intro h
    obtain ⟨k1, w⟩ := p
    rcases List.mem_cons.1 h with h1 | h1
    · obtain ⟨rfl, rfl⟩ := Prod.mk.injEq .. ▸ h1
      simp [sizeEntries]
      omega
    · have := ih h1
      simp [sizeEntries]
      omega

/-- An item is smaller than the item list. -/
theorem size_lt_of_mem_items {x : JVal} :
    ∀ {xs : List JVal}, x ∈ xs → JVal.size x < sizeItems xs := by
  intro xs
  induction xs with
  | nil => intro h; simp at h
  | cons y rest ih =>
    intro h
    rcases List.mem_cons.1 h with h1 | h1
    · subst h1
      simp [sizeItems]
      omega
    · have := ih h1
      simp [sizeItems]
      omega

/-- Step equation of `extractF` on a dict. -/
theorem extractF_succ_dict (fuel : Nat) (es : List (String × JVal)) (keys : List String) :
    extractF (fuel + 1) (JVal.jDict es) keys =
      if es.isEmpty then none
      else
        match goKeysF (fun v => extractF fuel v keys) es keys with
        | some r => some r
        | none => goValsF (fun v => extractF fuel v keys) es := rfl

/-- Step equation of `extractF` on a list. -/
theorem extractF_succ_list (fuel : Nat) (xs : List JVal) (keys : List String) :
    extractF (fuel + 1) (JVal.jList xs) keys =
      if xs.isEmpty then none
      else goItemsF (fun v => extractF fuel v keys) xs := rfl

/-- Step equation of `extractF` on a number. -/
theorem extractF_succ_num (fuel : Nat) (n : Int) (keys : List String) :
    extractF (fuel + 1) (JVal.jNum n) keys = none := by
  show (if (n == 0) = true then none else none) = none
  exact ite_self _

/-- Step equation of `extractF` on a string. -/
theorem extractF_succ_str (fuel : Nat) (s : String) (keys : List String) :
    extractF (fuel + 1) (JVal.jStr s) keys = none := by
  show (if (s == "") = true then none else none) = none
  exact ite_self _

/-- Step equation of `extractF` on `None`. -/
theorem extractF_succ_null (fuel : Nat) (keys : List String) :
    extractF (fuel + 1) JVal.jNull keys = none := rfl

/-- The candidate loop only looks at the recursion through entry values. -/
theorem goKeysF_congr {r1 r2 : JVal → Option JVal} {es : List (String × JVal)}
    (h : ∀ k v, (k, v) ∈ es → r1 v = r2 v) :
    ∀ ks, goKeysF r1 es ks = goKeysF r2 es ks := by
  intro ks
  induction ks with
  | nil => rfl
  | cons k rest ih =>
    simp only [goKeysF]
    cases hd : dictGet k es with
    | none => simpa using ih
    | some val =>
      have hv := h k val (dictGet_mem hd)
      simp only [hv, ih]

/-- The value loop only looks at the recursion through entry values. -/
theorem goValsF_congr {r1 r2 : JVal → Option JVal} :
    ∀ {es : List (String × JVal)}, (∀ k v, (k, v) ∈ es → r1 v = r2 v) →
    goValsF r1 es = goValsF r2 es := by
  intro es
  induction es with
  | nil => intro _; rfl
  | cons p rest ih =>
    intro h
    obtain ⟨k, v⟩ := p
    simp only [goValsF]
    rw [h k v (List.mem_cons_self _ _),
      ih (fun k2 v2 hm => h k2 v2 (List.mem_cons_of_mem _ hm))]

/-- The item loop only looks at the recursion through the items. -/
theorem goItemsF_congr {r1 r2 : JVal → Option JVal} :
    ∀ {xs : List JVal}, (∀ x, x ∈ xs → r1 x = r2 x) →
    goItemsF r1 xs = goItemsF r2 xs := by
  intro xs
  induction xs with
  | nil => intro _; rfl
  | cons x rest ih =>
    intro h
    simp only [goItemsF]
    rw [h x (List.mem_cons_self _ _),
      ih (fun y hm => h y (List.mem_cons_of_mem _ hm))]

/-- Fuel irrelevance: any fuel of at least `data.size` produces the same
result, so `extract_value` models the unbounded Python recursion. -/
theorem extractF_fuel : ∀ (f g : Nat) (data : JVal) (keys : List String),
    data.size ≤ f → data.size ≤ g → extractF f data keys = extractF g data keys := by
  intro f
  induction f with
  | zero =>
    intro g data keys hf hg
    have := data.size_pos
    omega
  | succ f ih =>
    intro g data keys hf hg
    cases g with
    | zero =>
      have := data.size_pos
      omega
    | succ g =>
      cases data with
      | jDict es =>
        have hkv : ∀ k v, (k, v) ∈ es → extractF f v keys = extractF g v keys := by
          intro k v hm
          have h1 := size_lt_of_mem_entries hm
          have h2 : JVal.size (JVal.jDict es) = 1 + sizeEntries es := by
            simp [JVal.size]
          exact ih g v keys (by omega) (by omega)
        rw [extractF_succ_dict, extractF_succ_dict,
          goKeysF_congr hkv keys, goValsF_congr hkv]
      | jList xs =>
        have hx : ∀ x, x ∈ xs → extractF f x keys = extractF g x keys := by
          intro x hm
          have h1 := size_lt_of_mem_items hm
          have h2 : JVal.size (JVal.jList xs) = 1 + sizeItems xs := by
            simp [JVal.size]
          exact ih g x keys (by omega) (by omega)
        rw [extractF_succ_list, extractF_succ_list, goItemsF_congr hx]
      | jNum n => rw [extractF_succ_num, extractF_succ_num]
      | jStr s => rw [extractF_succ_str, extractF_succ_str]
      | jNull => rfl

/-- `extract_value` agrees with any sufficiently fuelled run. -/
theorem extract_value_eq_extractF {f : Nat} {data : JVal} {keys : List String}
    (hf : data.size ≤ f) : extract_value data keys = extractF f data keys :=
  extractF_fuel data.size f data keys (le_refl _) hf

/-- If every candidate before `k` is absent and `k` is bound to a scalar,
the candidate loop returns that scalar. -/
theorem goKeysF_first_scalar {rec : JVal → Option JVal} {es : List (String × JVal)}
    {k : String} {v : JVal} (hk : dictGet k es = some v) (hs : v.isScalar = true) :
    ∀ pre post, (∀ k2, k2 ∈ pre → dictGet k2 es = none) →
    goKeysF rec es (pre ++ k :: post) = some v := by
  intro pre
  induction pre with
  | nil =>
    intro post _
    simp [goKeysF, hk, hs]
  | cons k2 rest ih =>
    intro post hpre
    have h2 : dictGet k2 es = none := hpre k2 (List.mem_cons_self _ _)
    simp only [List.cons_append, goKeysF, h2]
    exact ih post (fun k3 hm => hpre k3 (List.mem_cons_of_mem _ hm))

/-- If no candidate key is a key of the dict, the candidate loop finds
nothing. -/
theorem goKeysF_none_of_no_match {rec : JVal → Option JVal} {es : List (String × JVal)} :
    ∀ {ks : List String}, (∀ k, k ∈ ks → dictGet k es = none) →
    goKeysF rec es ks = none := by
  intro ks
  induction ks with
  | nil => intro _; rfl
  | cons k rest ih =>
    intro h
    simp [goKeysF, h k (List.mem_cons_self _ _),
      ih (fun k2 hm => h k2 (List.mem_cons_of_mem _ hm))]

/-- C2, counterexample: in `{"b": {"a": 1}, "a": 2}` with candidates
`["b", "a"]`, the key `"a"` exists at the top level with the scalar value
`2`, yet `extract_value` returns the nested `1` found by recursing under
the earlier candidate `"b"` — so a top-level scalar candidate value is not
always returned. -/
theorem extract_value_top_scalar_counterexample :
    dictGet "a" [("b", JVal.jDict [("a", JVal.jNum 1)]), ("a", JVal.jNum 2)]
        = some (JVal.jNum 2)
    ∧ (JVal.jNum 2).isScalar = true
    ∧ "a" ∈ ["b", "a"]
    ∧ extract_value
        (JVal.jDict [("b", JVal.jDict [("a", JVal.jNum 1)]), ("a", JVal.jNum 2)])
        ["b", "a"] = some (JVal.jNum 1)
    ∧ some (JVal.jNum 1) ≠ some (JVal.jNum 2) := by
  refine ⟨rfl, rfl, by simp, rfl, ?_⟩
  intro h
  have h1 : JVal.jNum 1 = JVal.jNum 2 := Option.some.inj h
  injection h1 with h2
  exact absurd h2 (by decide)

/-- C2, amended: if the first candidate key that is present at the top
level of the mapping has a scalar value, `extract_value` returns that
value without descending further. -/
theorem extract_value_first_present_scalar (es : List (String × JVal))
    (pre post : List String) (k : String) (v : JVal)
    (hpre : ∀ k2, k2 ∈ pre → dictGet k2 es = none)
    (hk : dictGet k es = some v) (hs : v.isScalar = true) :
    extract_value (JVal.jDict es) (pre ++ k :: post) = some v := by
  have hne : es ≠ [] := by
    intro h
    subst h
    simp [dictGet] at hk
  have hemp : es.isEmpty = false := by
    cases es with
    | nil => exact absurd rfl hne
    | cons p rest => rfl
  rw [extract_value_eq_extractF (f := sizeEntries es + 1)
      (by simp [JVal.size]; omega),
    extractF_succ_dict, hemp]
  simp only [Bool.false_eq_true, if_false]
  rw [goKeysF_first_scalar hk hs pre post hpre]

/-- C2 witness: concrete run of `extract_value_first_present_scalar`. -/
theorem extract_value_first_present_scalar_witness :
    extract_value (JVal.jDict [("x", JVal.jNum 7)]) ["q", "x"] = some (JVal.jNum 7) :=
  extract_value_first_present_scalar [("x", JVal.jNum 7)] ["q"] [] "x" (JVal.jNum 7)
    (by
      intro k2 hm
      have h1 : k2 = "q" := by simpa using hm
      subst h1
      rfl)
    rfl rfl

/-- C3, counterexample: the code searches depth-first, not breadth-first.
On `{"x": {"y": {"a": 1}}, "z": {"a": 2}}` with candidate `["a"]`, a
breadth-first search finds the shallower `2` under `"z"` first, but
`extract_value` returns the deeper `1` reached through the first value
`"x"`. -/
theorem extract_value_vs_bfs_counterexample :
    extract_value
        (JVal.jDict [("x", JVal.jDict [("y", JVal.jDict [("a", JVal.jNum 1)])]),
          ("z", JVal.jDict [("a", JVal.jNum 2)])]) ["a"] = some (JVal.jNum 1)
    ∧ spec_bfs
        (JVal.jDict [("x", JVal.jDict [("y", JVal.jDict [("a", JVal.jNum 1)])]),
          ("z", JVal.jDict [("a", JVal.jNum 2)])]) ["a"] = some (JVal.jNum 2)
    ∧ some (JVal.jNum 1) ≠ some (JVal.jNum 2) := by
  refine ⟨rfl, rfl, ?_⟩
  intro h
  have h1 : JVal.jNum 1 = JVal.jNum 2 := Option.some.inj h
  injection h1 with h2
  exact absurd h2 (by decide)

/-- C3, amended (depth-first search order): when no candidate key occurs
at the top level of a mapping, a successful recursive search of the first
value takes priority over every later value, no matter how deep its match
is — the defining property of the depth-first order actually implemented. -/
theorem extract_value_first_child_priority (k0 : String) (v : JVal)
    (es : List (String × JVal)) (keys : List String) (r : JVal)
    (hnone : ∀ k, k ∈ keys → dictGet k ((k0, v) :: es) = none)
    (hchild : extract_value v keys = some r) :
    extract_value (JVal.jDict ((k0, v) :: es)) keys = some r := by
  rw [extract_value_eq_extractF (f := sizeEntries ((k0, v) :: es) + 1)
      (by simp [JVal.size]; omega),
    extractF_succ_dict]
  simp only [List.isEmpty_cons, Bool.false_eq_true, if_false]
  rw [goKeysF_none_of_no_match hnone]
  simp only [goValsF]
  have hc : extractF (sizeEntries ((k0, v) :: es)) v keys = some r := by
    rw [← extract_value_eq_extractF (by simp [sizeEntries]; omega)]
    exact hchild
  rw [hc]

/-- C3 witness: concrete run of `extract_value_first_child_priority`. -/
theorem extract_value_first_child_priority_witness :
    extract_value
        (JVal.jDict [("x", JVal.jDict [("a", JVal.jNum 3)]),
          ("z", JVal.jDict [("a", JVal.jNum 4)])]) ["a"] = some (JVal.jNum 3) :=
  extract_value_first_child_priority "x" (JVal.jDict [("a", JVal.jNum 3)])
    [("z", JVal.jDict [("a", JVal.jNum 4)])] ["a"] (JVal.jNum 3)
    (by
      intro k hm
      have h1 : k = "a" := by simpa using hm
      subst h1
      rfl)
    rfl

/-- Step equation of `occsF` on a dict. -/
theorem occsF_succ_dict (fuel : Nat) (es : List (String × JVal)) (keys : List String) :
    occsF (fuel + 1) (JVal.jDict es) keys
      = occsEntries (fun v => occsF fuel v keys) keys es := rfl

/-- Step equation of `occsF` on a list. -/
theorem occsF_succ_list (fuel : Nat) (xs : List JVal) (keys : List String) :
    occsF (fuel + 1) (JVal.jList xs) keys
      = occsItems (fun v => occsF fuel v keys) xs := rfl

/-- A success of the candidate loop names a candidate key of the dict
whose value either is the scalar result or recursively produced it. -/
theorem goKeysF_some_elim {rec : JVal → Option JVal} {es : List (String × JVal)} {r : JVal} :
    ∀ {ks : List String}, goKeysF rec es ks = some r →
    ∃ k v, k ∈ ks ∧ dictGet k es = some v
      ∧ ((v.isScalar = true ∧ r = v) ∨ rec v = some r) := by
  intro ks
  induction ks with
  | nil => intro h; simp [goKeysF] at h
  | cons k rest ih =>
    intro h
    simp only [goKeysF] at h
    split at h
    · rename_i val heq
      split at h
      · rename_i hs
        exact ⟨k, val, List.mem_cons_self _ _, heq,
          Or.inl ⟨hs, (Option.some.inj h).symm⟩⟩
      · split at h
        · rename_i r2 hr
          refine ⟨k, val, List.mem_cons_self _ _, heq, Or.inr ?_⟩
          rw [hr]
          exact h
        · obtain ⟨k2, v2, hm, hg, hc⟩ := ih h
          exact ⟨k2, v2, List.mem_cons_of_mem _ hm, hg, hc⟩
    · rename_i heq
      obtain ⟨k2, v2, hm, hg, hc⟩ := ih h
      exact ⟨k2, v2, List.mem_cons_of_mem _ hm, hg, hc⟩

/-- A success of the value loop comes from recursing into some entry. -/
theorem goValsF_some_elim {rec : JVal → Option JVal} {r : JVal} :
    ∀ {es : List (String × JVal)}, goValsF rec es = some r →
    ∃ k v, (k, v) ∈ es ∧ rec v = some r := by
  intro es
  induction es with
  | nil => intro h; simp [goValsF] at h
  | cons p rest ih =>
    obtain ⟨k, v⟩ := p
    intro h
    simp only [goValsF] at h
    split at h
    · rename_i r2 hr
      refine ⟨k, v, List.mem_cons_self _ _, ?_⟩
      rw [hr]
      exact h
    · obtain ⟨k2, v2, hm, hr⟩ := ih h
      exact ⟨k2, v2, List.mem_cons_of_mem _ hm, hr⟩

/-- A success of the item loop comes from recursing into some item. -/
theorem goItemsF_some_elim {rec : JVal → Option JVal} {r : JVal} :
    ∀ {xs : List JVal}, goItemsF rec xs = some r →
    ∃ x, x ∈ xs ∧ rec x = some r := by
  intro xs
  induction xs with
  | nil => intro h; simp [goItemsF] at h
  | cons x rest ih =>
    intro h
    simp only [goItemsF] at h
    split at h
    · rename_i r2 hr
      refine ⟨x, List.mem_cons_self _ _, ?_⟩
      rw [hr]
      exact h
    · obtain ⟨x2, hm, hr⟩ := ih h
      exact ⟨x2, List.mem_cons_of_mem _ hm, hr⟩

/-- A scalar entry under a candidate key is among the occurrences. -/
theorem mem_occsEntries_entry {recO : JVal → List JVal} {keys : List String}
    {k : String} {v : JVal} :
    ∀ {es : List (String × JVal)}, (k, v) ∈ es → k ∈ keys → v.isScalar = true →
    v ∈ occsEntries recO keys es := by
  intro es
  induction es with
  | nil => intro h _ _; simp at h
  | cons p rest ih =>
    obtain ⟨k1, w⟩ := p
    intro hm hk hs
    rcases List.mem_cons.1 hm with h1 | h1
    · obtain ⟨rfl, rfl⟩ := Prod.mk.injEq .. ▸ h1
      simp only [occsEntries, if_pos (And.intro hk hs)]
      simp
    · have := ih h1 hk hs
      simp only [occsEntries, List.mem_append]
      tauto

/-- An occurrence found by recursing into an entry's value is among the
dict's occurrences. -/
theorem mem_occsEntries_child {recO : JVal → List JVal} {keys : List String}
    {k : String} {v r : JVal} :
    ∀ {es : List (String × JVal)}, (k, v) ∈ es → r ∈ recO v →
    r ∈ occsEntries recO keys es := by
  intro es
  induction es with
  | nil => intro h _; simp at h
  | cons p rest ih =>
    obtain ⟨k1, w⟩ := p
    intro hm hr
    rcases List.mem_cons.1 hm with h1 | h1
    · obtain ⟨rfl, rfl⟩ := Prod.mk.injEq .. ▸ h1
      simp only [occsEntries, List.mem_append]
      tauto
    · have := ih h1 hr
      simp only [occsEntries, List.mem_append]
      tauto

/-- An occurrence found by recursing into an item is among the list's
occurrences. -/
theorem mem_occsItems_child {recO : JVal → List JVal} {x r : JVal} :
    ∀ {xs : List JVal}, x ∈ xs → r ∈ recO x → r ∈ occsItems recO xs := by
  intro xs
  induction xs with
  | nil => intro h _; simp at h
  | cons y rest ih =>
    intro hm hr
    rcases List.mem_cons.1 hm with h1 | h1
    · subst h1
      simp only [occsItems, List.mem_append]
      tauto
    · have := ih h1 hr
      simp only [occsItems, List.mem_append]
      tauto

/-- Every value returned by the extractor is a scalar bound to a candidate
key somewhere in the structure. -/
theorem extractF_some_mem_occs : ∀ (f : Nat) (data : JVal) (keys : List String) (r : JVal),
    extractF f data keys = some r → r ∈ occsF f data keys := by
  intro f
  induction f with
  | zero => intro data keys r h; simp [extractF] at h
  | succ f ih =>
    intro data keys r h
    cases data with
    | jDict es =>
      rw [extractF_succ_dict] at h
      rw [occsF_succ_dict]
      by_cases he : es.isEmpty = true
      · rw [if_pos he] at h
        simp at h
      · rw [if_neg he] at h
        cases hg : goKeysF (fun v => extractF f v keys) es keys with
        | some r2 =>
          simp only [hg] at h
          obtain rfl : r2 = r := Option.some.inj h
          obtain ⟨k, v, hk, hd, hc⟩ := goKeysF_some_elim hg
          rcases hc with ⟨hs, rfl⟩ | hrec
          · exact mem_occsEntries_entry (dictGet_mem hd) hk hs
          · exact mem_occsEntries_child (dictGet_mem hd) (ih v keys _ hrec)
        | none =>
          simp only [hg] at h
          obtain ⟨k, v, hm, hr⟩ := goValsF_some_elim h
          exact mem_occsEntries_child hm (ih v keys _ hr)
    | jList xs =>
      rw [extractF_succ_list] at h
      rw [occsF_succ_list]
      by_cases he : xs.isEmpty = true
      · rw [if_pos he] at h
        simp at h
      · rw [if_neg he] at h
        obtain ⟨x, hm, hr⟩ := goItemsF_some_elim h
        exact mem_occsItems_child hm (ih x keys _ hr)
    | jNum n =>
      rw [extractF_succ_num] at h
      simp at h
    | jStr s =>
      rw [extractF_succ_str] at h
      simp at h
    | jNull =>
      rw [extractF_succ_null] at h
      simp at h

/-- C4: when no candidate key resolves to a scalar anywhere in the
(acyclic) structure, `extract_value` returns the not-found sentinel
`none` — a value distinct from `some (jNum 0)` and `some (jStr "")` by
construction of `Option` — and, being a total Lean function, it terminates
and cannot raise. -/
theorem extract_value_none_of_no_occurrences (data : JVal) (keys : List String)
    (h : occurrences data keys = []) : extract_value data keys = none := by
  cases he : extract_value data keys with
  | none => rfl
  | some r =>
    have h1 : r ∈ occsF data.size data keys :=
      extractF_some_mem_occs data.size data keys r he
    rw [show occsF data.size data keys = occurrences data keys from rfl, h] at h1
    simp at h1

/-- C4 witness: a structure with scalars but no candidate-bound scalar. -/
theorem extract_value_none_of_no_occurrences_witness :
    occurrences (JVal.jDict [("x", JVal.jList [JVal.jDict [("y", JVal.jNum 3)]])]) ["a"] = []
    ∧ extract_value (JVal.jDict [("x", JVal.jList [JVal.jDict [("y", JVal.jNum 3)]])]) ["a"]
        = none :=
  ⟨rfl, extract_value_none_of_no_occurrences _ ["a"] rfl⟩

/-- Step equation of `occsF` on a number. -/
theorem occsF_succ_num (fuel : Nat) (n : Int) (keys : List String) :
    occsF (fuel + 1) (JVal.jNum n) keys = [] := rfl

/-- Step equation of `occsF` on a string. -/
theorem occsF_succ_str (fuel : Nat) (s : String) (keys : List String) :
    occsF (fuel + 1) (JVal.jStr s) keys = [] := rfl

/-- Step equation of `occsF` on `None`. -/
theorem occsF_succ_null (fuel : Nat) (keys : List String) :
    occsF (fuel + 1) JVal.jNull keys = [] := rfl

/-- Step equation of `wfF` on a dict. -/
theorem wfF_succ_dict (fuel : Nat) (es : List (String × JVal)) :
    wfF (fuel + 1) (JVal.jDict es)
      = (keysNodup es && wfEntries (fun v => wfF fuel v) es) := rfl

/-- Step equation of `wfF` on a list. -/
theorem wfF_succ_list (fuel : Nat) (xs : List JVal) :
    wfF (fuel + 1) (JVal.jList xs) = wfItems (fun v => wfF fuel v) xs := rfl

/-- In a dict with pairwise distinct keys, lookup of a member entry's key
returns that entry's value. -/
theorem dictGet_of_nodup_mem {k : String} {v : JVal} :
    ∀ {es : List (String × JVal)}, keysNodup es = true → (k, v) ∈ es →
    dictGet k es = some v := by
  intro es
  induction es with
  | nil => intro _ h; simp at h
  | cons p rest ih =>
    obtain ⟨k1, w⟩ := p
    intro hnd hm
    simp only [keysNodup, Bool.and_eq_true] at hnd
    rcases List.mem_cons.1 hm with h1 | h1
    · obtain ⟨rfl, rfl⟩ := Prod.mk.injEq .. ▸ h1
      simp [dictGet]
    · have hany : (rest.any fun q => q.1 == k1) = false := by
        have := hnd.1
        cases hh : rest.any fun q => q.1 == k1
        · rfl
        · rw [hh] at this
          simp at this
      have hne : (k == k1) = false := by
        rw [List.any_eq_false] at hany
        simpa using hany (k, v) h1
      simp only [dictGet, hne, Bool.false_eq_true, if_false]
      exact ih hnd.2 h1

/-- If some candidate in the list is bound to a scalar at this dict, the
candidate loop succeeds (with some result, possibly an earlier one). -/
theorem goKeysF_some_of_scalar_hit (rec : JVal → Option JVal) {es : List (String × JVal)}
    {k : String} {v : JVal} :
    ∀ {ks : List String}, k ∈ ks → dictGet k es = some v → v.isScalar = true →
    ∃ r, goKeysF rec es ks = some r := by
  intro ks
  induction ks with
  | nil => intro h _ _; simp at h
  | cons k1 rest ih =>
    intro hm hd hs
    cases hd1 : dictGet k1 es with
    | none =>
      have hm2 : k ∈ rest := by
        rcases List.mem_cons.1 hm with rfl | h2
        · rw [hd] at hd1
          simp at hd1
        · exact h2
      obtain ⟨r, hr⟩ := ih hm2 hd hs
      exact ⟨r, by simp [goKeysF, hd1, hr]⟩
    | some w =>
      by_cases hsw : w.isScalar = true
      · exact ⟨w, by simp [goKeysF, hd1, hsw]⟩
      · cases hr : rec w with
        | some r2 => exact ⟨r2, by simp [goKeysF, hd1, hsw, hr]⟩
        | none =>
          have hm2 : k ∈ rest := by
            rcases List.mem_cons.1 hm with rfl | h2
            · rw [hd] at hd1
              obtain rfl : v = w := Option.some.inj hd1
              exact absurd hs hsw
            · exact h2
          obtain ⟨r2, h2⟩ := ih hm2 hd hs
          exact ⟨r2, by simp [goKeysF, hd1, hsw, hr, h2]⟩

/-- If recursion into some entry's value succeeds, the value loop
succeeds. -/
theorem goValsF_some_of_child (rec : JVal → Option JVal) {k : String} {v r : JVal} :
    ∀ {es : List (String × JVal)}, (k, v) ∈ es → rec v = some r →
    ∃ r2, goValsF rec es = some r2 := by
  intro es
  induction es with
  | nil => intro h _; simp at h
  | cons p rest ih =>
    obtain ⟨k1, w⟩ := p
    intro hm hr
    cases hw : rec w with
    | some r2 => exact ⟨r2, by simp [goValsF, hw]⟩
    | none =>
      have hm2 : (k, v) ∈ rest := by
        rcases List.mem_cons.1 hm with h1 | h1
        · obtain ⟨rfl, rfl⟩ := Prod.mk.injEq .. ▸ h1
          rw [hr] at hw
          simp at hw
        · exact h1
      obtain ⟨r2, h2⟩ := ih hm2 hr
      exact ⟨r2, by simp [goValsF, hw, h2]⟩

/-- If recursion into some item succeeds, the item loop succeeds. -/
theorem goItemsF_some_of_child (rec : JVal → Option JVal) {x r : JVal} :
    ∀ {xs : List JVal}, x ∈ xs → rec x = some r →
    ∃ r2, goItemsF rec xs = some r2 := by
  intro xs
  induction xs with
  | nil => intro h _; simp at h
  | cons y rest ih =>
    intro hm hr
    cases hy : rec y with
    | some r2 => exact ⟨r2, by simp [goItemsF, hy]⟩
    | none =>
      have hm2 : x ∈ rest := by
        rcases List.mem_cons.1 hm with rfl | h1
        · rw [hr] at hy
          simp at hy
        · exact h1
      obtain ⟨r2, h2⟩ := ih hm2 hr
      exact ⟨r2, by simp [goItemsF, hy, h2]⟩

/-- An occurrence inside a dict's entries is either a direct candidate
scalar or comes from recursing into some entry's value. -/
theorem occsEntries_elim {recO : JVal → List JVal} {keys : List String} {v : JVal} :
    ∀ {es : List (String × JVal)}, v ∈ occsEntries recO keys es →
    (∃ k w, (k, w) ∈ es ∧ k ∈ keys ∧ w.isScalar = true ∧ v = w)
    ∨ (∃ k w, (k, w) ∈ es ∧ v ∈ recO w) := by
  intro es
  induction es with
  | nil => intro h; simp [occsEntries] at h
  | cons p rest ih =>
    obtain ⟨k1, w1⟩ := p
    intro h
    simp only [occsEntries, List.mem_append] at h
    rcases h with (h1 | h1) | h1
    · by_cases hc : k1 ∈ keys ∧ w1.isScalar = true
      · rw [if_pos hc] at h1
        obtain rfl : v = w1 := by simpa using h1
        exact Or.inl ⟨k1, v, List.mem_cons_self _ _, hc.1, hc.2, rfl⟩
      · rw [if_neg hc] at h1
        simp at h1
    · exact Or.inr ⟨k1, w1, List.mem_cons_self _ _, h1⟩
    · rcases ih h1 with ⟨k, w, hm, hk, hs, hv⟩ | ⟨k, w, hm, hv⟩
      · exact Or.inl ⟨k, w, List.mem_cons_of_mem _ hm, hk, hs, hv⟩
      · exact Or.inr ⟨k, w, List.mem_cons_of_mem _ hm, hv⟩

/-- An occurrence inside a list's items comes from recursing into some
item. -/
theorem occsItems_elim {recO : JVal → List JVal} {v : JVal} :
    ∀ {xs : List JVal}, v ∈ occsItems recO xs → ∃ x, x ∈ xs ∧ v ∈ recO x := by
  intro xs
  induction xs with
  | nil => intro h; simp [occsItems] at h
  | cons y rest ih =>
    intro h
    simp only [occsItems, List.mem_append] at h
    rcases h with h1 | h1
    · exact ⟨y, List.mem_cons_self _ _, h1⟩
    · obtain ⟨x, hm, hv⟩ := ih h1
      exact ⟨x, List.mem_cons_of_mem _ hm, hv⟩

/-- Well-formedness of the entries passes to each entry's value. -/
theorem wfEntries_mem {recW : JVal → Bool} {k : String} {v : JVal} :
    ∀ {es : List (String × JVal)}, wfEntries recW es = true → (k, v) ∈ es →
    recW v = true := by
  intro es
  induction es with
  | nil => intro _ h; simp at h
  | cons p rest ih =>
    obtain ⟨k1, w⟩ := p
    intro hw hm
    simp only [wfEntries, Bool.and_eq_true] at hw
    rcases List.mem_cons.1 hm with h1 | h1
    · obtain ⟨rfl, rfl⟩ := Prod.mk.injEq .. ▸ h1
      exact hw.1
    · exact ih hw.2 h1

/-- Well-formedness of the items passes to each item. -/
theorem wfItems_mem {recW : JVal → Bool} {x : JVal} :
    ∀ {xs : List JVal}, wfItems recW xs = true → x ∈ xs → recW x = true := by
  intro xs
  induction xs with
  | nil => intro _ h; simp at h
  | cons y rest ih =>
    intro hw hm
    simp only [wfItems, Bool.and_eq_true] at hw
    rcases List.mem_cons.1 hm with rfl | h1
    · exact hw.1
    · exact ih hw.2 h1

/-- In a well-formed structure, the extractor succeeds whenever some
candidate key is bound to a scalar somewhere. -/
theorem extractF_isSome_of_occ : ∀ (f : Nat) (data : JVal) (keys : List String) (v : JVal),
    v ∈ occsF f data keys → wfF f data = true → ∃ r, extractF f data keys = some r := by
  intro f
  induction f with
  | zero => intro data keys v h _; simp [occsF] at h
  | succ f ih =>
    intro data keys v h hwf
    cases data with
    | jDict es =>
      rw [occsF_succ_dict] at h
      rw [wfF_succ_dict, Bool.and_eq_true] at hwf
      have hne : es.isEmpty = false := by
        cases es with
        | nil => simp [occsEntries] at h
        | cons p rest => rfl
      have hif : ¬(es.isEmpty = true) := by simp [hne]
      rcases occsEntries_elim h with ⟨k, w, hm, hk, hs, rfl⟩ | ⟨k, w, hm, hv⟩
      · have hd : dictGet k es = some v := dictGet_of_nodup_mem hwf.1 hm
        obtain ⟨r, hr⟩ :=
          goKeysF_some_of_scalar_hit (fun u => extractF f u keys) hk hd hs
        exact ⟨r, by rw [extractF_succ_dict, if_neg hif, hr]⟩
      · have hw : wfF f w = true := wfEntries_mem hwf.2 hm
        obtain ⟨r, hr⟩ := ih w keys v hv hw
        cases hg : goKeysF (fun u => extractF f u keys) es keys with
        | some r2 => exact ⟨r2, by rw [extractF_succ_dict, if_neg hif, hg]⟩
        | none =>
          obtain ⟨r2, h2⟩ :=
            goValsF_some_of_child (fun u => extractF f u keys) hm hr
          exact ⟨r2, by rw [extractF_succ_dict, if_neg hif, hg, h2]⟩
    | jList xs =>
      rw [occsF_succ_list] at h
      rw [wfF_succ_list] at hwf
      have hne : xs.isEmpty = false := by
        cases xs with
        | nil => simp [occsItems] at h
        | cons y rest => rfl
      have hif : ¬(xs.isEmpty = true) := by simp [hne]
      obtain ⟨x, hm, hv⟩ := occsItems_elim h
      have hx : wfF f x = true := wfItems_mem hwf hm
      obtain ⟨r, hr⟩ := ih x keys v hv hx
      obtain ⟨r2, h2⟩ :=
        goItemsF_some_of_child (fun u => extractF f u keys) hm hr
      exact ⟨r2, by rw [extractF_succ_list, if_neg hif, h2]⟩
    | jNum n =>
      rw [occsF_succ_num] at h
      simp at h
    | jStr s =>
      rw [occsF_succ_str] at h
      simp at h
    | jNull =>
      rw [occsF_succ_null] at h
      simp at h

/-- C5: on a well-formed structure (every dict has distinct keys, as
Python dicts do) containing exactly one occurrence of a candidate key
bound to a scalar value, `extract_value` returns that value, at whatever
nesting depth it sits. -/
theorem extract_value_unique_occurrence (data : JVal) (keys : List String) (v : JVal)
    (hwf : wfJVal data = true) (h : occurrences data keys = [v]) :
    extract_value data keys = some v := by
  obtain ⟨r, hr⟩ := extractF_isSome_of_occ data.size data keys v
    (by
      rw [show occsF data.size data keys = occurrences data keys from rfl, h]
      simp)
    hwf
  have h2 : r ∈ occsF data.size data keys := extractF_some_mem_occs _ _ _ _ hr
  rw [show occsF data.size data keys = occurrences data keys from rfl, h] at h2
  obtain rfl : r = v := by simpa using h2
  exact hr

/-- C5 witness: a single deep occurrence of the candidate `"a"`. -/
theorem extract_value_unique_occurrence_witness :
    wfJVal (JVal.jDict [("z", JVal.jList
        [JVal.jDict [("b", JVal.jNum 1)], JVal.jDict [("a", JVal.jNum 9)]])]) = true
    ∧ occurrences (JVal.jDict [("z", JVal.jList
        [JVal.jDict [("b", JVal.jNum 1)], JVal.jDict [("a", JVal.jNum 9)]])]) ["a"]
        = [JVal.jNum 9]
    ∧ extract_value (JVal.jDict [("z", JVal.jList
        [JVal.jDict [("b", JVal.jNum 1)], JVal.jDict [("a", JVal.jNum 9)]])]) ["a"]
        = some (JVal.jNum 9) :=
  ⟨rfl, rfl, extract_value_unique_occurrence _ ["a"] _ rfl rfl⟩

/-- The spec transcription of clauses (a)/(b) coincides with the code's
candidate loop. -/
theorem specCandF_eq_goKeysF (rec : JVal → Option JVal) (es : List (String × JVal)) :
    ∀ ks, specCandF rec es ks = goKeysF rec es ks := by
  intro ks
  induction ks with
  | nil => rfl
  | cons k rest ih =>
    simp only [specCandF, goKeysF, ih]

/-- The candidate loop over an empty dict finds nothing. -/
theorem specCandF_nil (rec : JVal → Option JVal) :
    ∀ ks, specCandF rec [] ks = none := by
  intro ks
  induction ks with
  | nil => rfl
  | cons k rest ih =>
    simp only [specCandF, dictGet]
    exact ih

/-- The spec transcription of clause (d) coincides with the code's item
loop. -/
theorem specSeqF_eq_goItemsF (rec : JVal → Option JVal) :
    ∀ xs, specSeqF rec xs = goItemsF rec xs := by
  intro xs
  induction xs with
  | nil => rfl
  | cons x rest ih =>
    simp only [specSeqF, goItemsF, ih]

/-- Recursing into every dict value equals the item loop over the list of
values. -/
theorem goValsF_eq_goItemsF_map (rec : JVal → Option JVal) :
    ∀ es : List (String × JVal), goValsF rec es = goItemsF rec (es.map Prod.snd) := by
  intro es
  induction es with
  | nil => rfl
  | cons p rest ih =>
    obtain ⟨k, v⟩ := p
    simp only [goValsF, List.map_cons, goItemsF, ih]

/-- Step equation of `specExtractF` on a dict. -/
theorem specExtractF_succ_dict (fuel : Nat) (es : List (String × JVal)) (keys : List String) :
    specExtractF (fuel + 1) (JVal.jDict es) keys =
      match specCandF (fun v => specExtractF fuel v keys) es keys with
      | some r => some r
      | none => specSeqF (fun v => specExtractF fuel v keys) (es.map Prod.snd) := rfl

/-- Step equation of `specExtractF` on a list. -/
theorem specExtractF_succ_list (fuel : Nat) (xs : List JVal) (keys : List String) :
    specExtractF (fuel + 1) (JVal.jList xs) keys
      = specSeqF (fun v => specExtractF fuel v keys) xs := rfl

/-- At every fuel level the code's extractor agrees with the amended spec
order. -/
theorem extractF_eq_specExtractF : ∀ (f : Nat) (data : JVal) (keys : List String),
    extractF f data keys = specExtractF f data keys := by
  intro f
  induction f with
  | zero => intro data keys; rfl
  | succ f ih =>
    intro data keys
    cases data with
    | jDict es =>
      cases es with
      | nil =>
        rw [specExtractF_succ_dict, specCandF_nil]
        rfl
      | cons p rest =>
        rw [extractF_succ_dict, if_neg (by simp), specExtractF_succ_dict]
        have hcand : specCandF (fun v => specExtractF f v keys) (p :: rest) keys
            = goKeysF (fun v => extractF f v keys) (p :: rest) keys := by
          rw [specCandF_eq_goKeysF]
          exact goKeysF_congr (fun k v _ => (ih v keys).symm) keys
        have hseq : specSeqF (fun v => specExtractF f v keys) ((p :: rest).map Prod.snd)
            = goValsF (fun v => extractF f v keys) (p :: rest) := by
          rw [specSeqF_eq_goItemsF, ← goValsF_eq_goItemsF_map]
          exact goValsF_congr (fun k v _ => (ih v keys).symm)
        rw [hcand, hseq]
    | jList xs =>
      cases xs with
      | nil => rfl
      | cons y rest =>
        rw [extractF_succ_list, if_neg (by simp), specExtractF_succ_list]
        have h1 : specSeqF (fun v => specExtractF f v keys) (y :: rest)
            = goItemsF (fun v => extractF f v keys) (y :: rest) := by
          rw [specSeqF_eq_goItemsF]
          exact goItemsF_congr (fun x _ => (ih x keys).symm)
        rw [h1]
    | jNum n =>
      rw [extractF_succ_num]
      rfl
    | jStr s =>
      rw [extractF_succ_str]
      rfl
    | jNull => rfl

/-- C1, counterexample to the literal reading: on
`{"a": [], "z": {"a": 5}}` with candidates `["a"]`, the candidate `"a"`
directly matches a top-level key, so under the literal clause (c) — which
applies only "if no direct candidate matches" — the search ends with
nothing; the code nevertheless recurses into every value and returns `5`. -/
theorem extract_value_vs_literal_order_counterexample :
    extract_value
        (JVal.jDict [("a", JVal.jList []), ("z", JVal.jDict [("a", JVal.jNum 5)])])
        ["a"] = some (JVal.jNum 5)
    ∧ spec_order
        (JVal.jDict [("a", JVal.jList []), ("z", JVal.jDict [("a", JVal.jNum 5)])])
        ["a"] = none
    ∧ hasDirectCandidate
        [("a", JVal.jList []), ("z", JVal.jDict [("a", JVal.jNum 5)])] ["a"] = true :=
  ⟨rfl, rfl, rfl⟩

/-- C1 (amended): `extract_value` returns exactly the first scalar found
by the claimed search order with clause (c) amended to apply whenever the
direct-candidate phase produced no result (not only when no candidate key
is present): clauses (a), (b) and (d) are as claimed, and the first
non-absent result at any depth is returned. -/
theorem extract_value_eq_spec_extract (data : JVal) (keys : List String) :
    extract_value data keys = spec_extract data keys :=
  extractF_eq_specExtractF data.size data keys

/-- A key absent from every binding looks up to nothing. -/
theorem dictGet_eq_none_of_forall {α : Type} {k : String} :
    ∀ {l : List (String × α)}, (∀ p, p ∈ l → p.1 ≠ k) → dictGet k l = none := by
  intro l
  induction l with
  | nil => intro _; rfl
  | cons p rest ih =>
    intro h
    obtain ⟨k1, v⟩ := p
    have h1 : k1 ≠ k := h (k1, v) (List.mem_cons_self _ _)
    have h2 : (k == k1) = false := by
      cases hb : k == k1
      · rfl
      · exact absurd (eq_of_beq hb).symm h1
    simp only [dictGet, h2, Bool.false_eq_true, if_false]
    exact ih (fun q hm => h q (List.mem_cons_of_mem _ hm))

/-- Every binding kept by `keepSome` comes from a present binding of the
original list, with the same key. -/
theorem keepSome_key_mem {p : String × NProp} {l : List (String × Option NProp)}
    (hp : p ∈ keepSome l) : ∃ q, q ∈ l ∧ q.1 = p.1 ∧ q.2 = some p.2 := by
  unfold keepSome at hp
  rw [List.mem_filterMap] at hp
  obtain ⟨a, ha, hfa⟩ := hp
  obtain ⟨k, o⟩ := a
  cases o with
  | none => simp at hfa
  | some v =>
    have h2 : some (k, v) = some p := hfa
    obtain rfl := Option.some.inj h2
    exact ⟨(k, some v), ha, rfl, rfl⟩

/-- C6: a numeric metric equal to zero is treated as missing —
`notion_number 0` is `None`, and consequently a zero step-count never
produces a `"Steps"` binding in the health record built by
`build_health_properties`, whatever the other metrics are. -/
theorem notion_number_zero_dropped :
    notion_number (some 0) = none
    ∧ ∀ (yesterday : PyDate) (bw bbmin bbmax ss : Option ℚ)
        (bed wake : Option String) (tr : Option ℚ) (ts : Option String)
        (rhr cal : Option ℚ),
      dictGet "Steps" (build_health_properties yesterday (some 0) bw bbmin bbmax ss
        bed wake tr ts rhr cal) = none := by
  refine ⟨rfl, ?_⟩
  intro yesterday bw bbmin bbmax ss bed wake tr ts rhr cal
  apply dictGet_eq_none_of_forall
  intro p hp
  intro he
  simp only [build_health_properties] at hp
  obtain ⟨q, hq, hk, hv⟩ := keepSome_key_mem hp
  rw [← hk] at he
  simp only [List.mem_cons, List.not_mem_nil, or_false] at hq
  rcases hq with rfl | rfl | rfl | rfl | rfl | rfl | rfl | rfl | rfl | rfl | rfl | rfl | rfl <;>
    simp_all [notion_number]

/-- A lookup succeeds exactly when the key occurs among the keys. -/
theorem dictGet_isSome_iff_mem_keys {α : Type} {k : String} :
    ∀ {l : List (String × α)}, (dictGet k l).isSome = true ↔ k ∈ l.map Prod.fst := by
  intro l
  induction l with
  | nil => simp [dictGet]
  | cons p rest ih =>
    obtain ⟨k1, v⟩ := p
    cases hb : k == k1 with
    | true =>
      have h1 : k = k1 := eq_of_beq hb
      simp [dictGet, hb, h1]
    | false =>
      have hne : ¬(k = k1) := by
        intro e
        subst e
        simp at hb
      simp [dictGet, hb, hne, ih]

/-- C8: the health-record write decision — the create call is attempted
exactly when both the `"Name"` and `"Date"` keys are present in the built
properties, i.e. it is skipped exactly when one of them is absent. -/
theorem health_push_attempted_iff (props : List (String × NProp)) :
    health_push_attempted props = true
      ↔ ("Name" ∈ props.map Prod.fst ∧ "Date" ∈ props.map Prod.fst) := by
  rw [← dictGet_isSome_iff_mem_keys (k := "Name"),
    ← dictGet_isSome_iff_mem_keys (k := "Date")]
  cases h1 : dictGet "Name" props <;> cases h2 : dictGet "Date" props <;>
    simp [health_push_attempted, h1, h2]

/-- The ISO rendering of a date is never the empty string. -/
theorem isoformat_ne_empty (d : PyDate) : d.isoformat ≠ "" := by
  intro h
  have h1 : (PyDate.isoformat d).length = 0 := by
    rw [h]
    rfl
  rw [PyDate.isoformat, String.length_append, String.length_append,
    String.length_append, String.length_append,
    show ("-" : String).length = 1 from rfl] at h1
  omega

/-- C9: for every combination of metric inputs, the health record built by
`build_health_properties` contains both the `"Name"` and `"Date"` keys —
the title is never `None` and yesterday's ISO string is never empty — so
the abort branch of `main` for a missing Name or Date never fires on a
built record. -/
theorem build_health_properties_has_name_date
    (yesterday : PyDate) (steps bw bbmin bbmax ss : Option ℚ)
    (bed wake : Option String) (tr : Option ℚ) (ts : Option String)
    (rhr cal : Option ℚ) :
    dictGet "Name" (build_health_properties yesterday steps bw bbmin bbmax ss
        bed wake tr ts rhr cal) = some (notion_title yesterday.strftimeMDY)
    ∧ dictGet "Date" (build_health_properties yesterday steps bw bbmin bbmax ss
        bed wake tr ts rhr cal) = some (NProp.dateObj yesterday.isoformat)
    ∧ health_push_attempted (build_health_properties yesterday steps bw bbmin bbmax ss
        bed wake tr ts rhr cal) = true := by
  have hiso : ¬(yesterday.isoformat = "") := isoformat_ne_empty yesterday
  have hdate : notion_date_obj_from_iso (some yesterday.isoformat)
      = some (NProp.dateObj yesterday.isoformat) := by
    simp [notion_date_obj_from_iso, hiso]
  have h1 : dictGet "Name" (build_health_properties yesterday steps bw bbmin bbmax ss
      bed wake tr ts rhr cal) = some (notion_title yesterday.strftimeMDY) := by
    simp [build_health_properties, keepSome, List.filterMap_cons, dictGet]
  have h2 : dictGet "Date" (build_health_properties yesterday steps bw bbmin bbmax ss
      bed wake tr ts rhr cal) = some (NProp.dateObj yesterday.isoformat) := by
    simp [build_health_properties, keepSome, List.filterMap_cons, hdate, dictGet]
  refine ⟨h1, h2, ?_⟩
  simp [health_push_attempted, h1, h2]

/-- C7: `safe_fetch` passes a successful fetch result through, and turns
any raised exception into `None`, which the caller's `or`-default pattern
replaces with the empty/zero default; being a total Lean function it never
propagates a failure. -/
theorem safe_fetch_spec (ε α : Type) (f : α → Except ε JVal) (a : α) (d : JVal) :
    (∀ b, f a = Except.ok b → safe_fetch f a = some b)
    ∧ (∀ e, f a = Except.error e →
        safe_fetch f a = none ∧ pyOr (safe_fetch f a) d = d) := by
  constructor
  · intro b hb
    simp [safe_fetch, hb]
  · intro e he
    simp [safe_fetch, he, pyOr]

/-- C7 witness: one succeeding and one raising fetch. -/
theorem safe_fetch_spec_witness :
    safe_fetch (fun _ : Unit => (Except.ok (JVal.jNum 7) : Except String JVal)) ()
        = some (JVal.jNum 7)
    ∧ (safe_fetch (fun _ : Unit => (Except.error "boom" : Except String JVal)) () = none
      ∧ pyOr (safe_fetch (fun _ : Unit => (Except.error "boom" : Except String JVal)) ())
          (JVal.jList []) = JVal.jList []) :=
  ⟨(safe_fetch_spec String Unit (fun _ => Except.ok (JVal.jNum 7)) () (JVal.jList [])).1
      (JVal.jNum 7) rfl,
    (safe_fetch_spec String Unit (fun _ => Except.error "boom") () (JVal.jList [])).2
      "boom" rfl⟩

/-- C10: duplicate detection precedence.  Provided every page id stored in
the Garmin-id map is non-empty (Notion page ids always are), the lookup
returns the page id stored under the stringified Garmin id whenever the
database has the Garmin ID property and the id is non-empty and present;
otherwise it returns the page id stored under the fallback
`name|date|type` key (date truncated at `T`), and `none` when neither
matches — exactly the claimed decision tree `spec_find_page`. -/
theorem find_existing_activity_page_spec (garmin_id : Option String)
    (name iso act_type : String) (byGid byKey : List (String × String))
    (db_has : Bool) (hpid : ∀ p, p ∈ byGid → p.2 ≠ "") :
    find_existing_activity_page garmin_id name (dateOnly iso) act_type byGid byKey db_has
      = spec_find_page garmin_id name (dateOnly iso) act_type byGid byKey db_has := by
  cases garmin_id with
  | none => rfl
  | some g =>
    simp only [find_existing_activity_page, spec_find_page]
    by_cases hg : (db_has && !(g == "")) = true
    · rw [if_pos hg, if_pos hg]
      cases hd : dictGet g byGid with
      | none => simp [hd]
      | some pid =>
        have hne : pid ≠ "" := hpid (g, pid) (dictGet_mem hd)
        have hb : (pid == "") = false := by
          cases hb2 : pid == ""
          · rfl
          · exact absurd (eq_of_beq hb2) hne
        simp [hd, hb]
    · rw [if_neg hg, if_neg hg]

/-- C10 witness: a present, non-empty Garmin id wins over the fallback. -/
theorem find_existing_activity_page_spec_witness :
    find_existing_activity_page (some "123") "Run" (dateOnly "2025-01-02T03:04:05")
        "Running" [("123", "pg1")] [] true
      = spec_find_page (some "123") "Run" (dateOnly "2025-01-02T03:04:05")
        "Running" [("123", "pg1")] [] true :=
  find_existing_activity_page_spec (some "123") "Run" "2025-01-02T03:04:05" "Running"
    [("123", "pg1")] [] true (by decide)
